import Mathlib

set_option maxHeartbeats 1000000
set_option linter.unusedVariables false

/-!
Verification development for the gospelo-backlog-docs upload pipeline.

The Python sources are embedded shallowly:
* `markdown_parser.py` — image-reference extraction (`IMAGE_PATTERN`,
  `extract_images`), text replacement (`str.replace` as used by
  `replace_content` and the uploader's rewrite loop);
* `uploader.py` — `remove_emojis` and the `WikiUploader.upload` orchestration,
  with the remote Backlog client modelled as a deterministic id-issuing
  service and per-session oracles for path resolution, diagram rendering and
  link failure;
* `mermaid_converter.py` — `MermaidConverter.convert` over an abstract
  outcome of the external `mmdc` process.

Text is modelled as `List Char`.
-/

/-- Image reference record mirroring the `ImageReference` dataclass of
`markdown_parser.py`: exact matched substring, alt text, path, and span. -/
structure ImageRef where
  original_text : List Char
  alt_text : List Char
  path : List Char
  start_pos : Nat
  end_pos : Nat
  deriving DecidableEq, Repr

/-- Attempt to match `IMAGE_PATTERN` at the head of the input.  The Python
regex is `!\[([^\]]*)\]\(([^)]+)\)`: literal `![`, a run of non-`]`
characters (group 1), literal `](`, a nonempty run of non-`)` characters
(group 2), literal `)`.  Both character-class runs are deterministic (no
backtracking is possible because the closing delimiter is excluded from the
class), so each captured run is the maximal `takeWhile` run.  Returns the
captured alt text, path and the unconsumed remainder. -/
def matchImageAt (l : List Char) : Option (List Char × List Char × List Char) :=
  match l with
  | c1 :: c2 :: rest =>
    if c1 = '!' ∧ c2 = '[' then
      let alt := rest.takeWhile (fun c => decide (c ≠ ']'))
      match rest.dropWhile (fun c => decide (c ≠ ']')) with
      | d1 :: d2 :: rest2 =>
        if d1 = ']' ∧ d2 = '(' then
          let path := rest2.takeWhile (fun c => decide (c ≠ ')'))
          match rest2.dropWhile (fun c => decide (c ≠ ')')) with
          | e1 :: rest3 =>
            if e1 = ')' ∧ path ≠ [] then some (alt, path, rest3) else none
          | [] => none
        else none
      | _ => none
    else none
  | _ => none

/-- Shape of a successful `matchImageAt`: the input decomposes as the matched
text followed by the remainder, the alt run contains no `]`, the path run
contains no `)` and is nonempty. -/
theorem matchImageAt_some {l alt path rest3 : List Char}
    (h : matchImageAt l = some (alt, path, rest3)) :
    l = '!' :: '[' :: (alt ++ ']' :: '(' :: (path ++ ')' :: rest3)) ∧
      (∀ c ∈ alt, c ≠ ']') ∧ (∀ c ∈ path, c ≠ ')') ∧ path ≠ [] := by
  unfold matchImageAt at h
  split at h
  case _ c1 c2 rest =>
    split at h
    case isTrue hc =>
      obtain ⟨hc1, hc2⟩ := hc
      subst hc1; subst hc2
      split at h
      case _ d1 d2 rest2 hdrop =>
        split at h
        case isTrue hd =>
          obtain ⟨hd1, hd2⟩ := hd
          subst hd1; subst hd2
          split at h
          case _ e1 rest3' hdrop2 =>
            dsimp only [] at h
            split at h
            case isTrue he =>
              obtain ⟨he1, hne⟩ := he
              subst he1
              obtain ⟨h1, h2, h3⟩ :
                  rest.takeWhile (fun c => decide (c ≠ ']')) = alt ∧
                    rest2.takeWhile (fun c => decide (c ≠ ')')) = path ∧
                      rest3' = rest3 := by simpa using h
              subst h1; subst h2; subst h3
              refine ⟨?_, ?_, ?_, by simpa using hne⟩
              · have e1 : rest.takeWhile (fun c => decide (c ≠ ']')) ++
                    rest.dropWhile (fun c => decide (c ≠ ']')) = rest :=
                  List.takeWhile_append_dropWhile _ _
                have e2 : rest2.takeWhile (fun c => decide (c ≠ ')')) ++
                    rest2.dropWhile (fun c => decide (c ≠ ')')) = rest2 :=
                  List.takeWhile_append_dropWhile _ _
                rw [hdrop] at e1
                rw [hdrop2] at e2
                rw [← e2] at e1
                simp only [List.cons.injEq, true_and]
                exact e1.symm
              · intro c hc
                have := List.mem_takeWhile_imp hc
                simpa using this
              · intro c hc
                have := List.mem_takeWhile_imp hc
                simpa using this
            case isFalse => exact absurd h (by simp)
          case _ => exact absurd h (by simp)
        case isFalse => exact absurd h (by simp)
      case _ => exact absurd h (by simp)
    case isFalse => exact absurd h (by simp)
  case _ => exact absurd h (by simp)

/-- Text of one image match rendered back: the exact matched substring
`![alt](path)` recorded in `ImageReference.original_text`. -/
def imageText (alt path : List Char) : List Char :=
  '!' :: '[' :: (alt ++ ']' :: '(' :: (path ++ [')']))

theorem imageText_length (alt path : List Char) :
    (imageText alt path).length = alt.length + path.length + 5 := by
  simp [imageText]; omega

theorem imageText_append (alt path r : List Char) :
    imageText alt path ++ r = '!' :: '[' :: (alt ++ ']' :: '(' :: (path ++ ')' :: r)) := by
  simp [imageText]

/-- Restatement of `matchImageAt_some` in terms of `imageText`. -/
theorem matchImageAt_some_eq {l alt path rest3 : List Char}
    (h : matchImageAt l = some (alt, path, rest3)) :
    l = imageText alt path ++ rest3 ∧
      (∀ c ∈ alt, c ≠ ']') ∧ (∀ c ∈ path, c ≠ ')') ∧ path ≠ [] := by
  obtain ⟨h1, h2, h3, h4⟩ := matchImageAt_some h
  exact ⟨by rw [imageText_append]; exact h1, h2, h3, h4⟩

theorem takeWhile_append_stop {p : Char → Bool} {l₁ l₂ : List Char}
    (h1 : ∀ c ∈ l₁, p c = true) {c : Char} (hc : p c = false) :
    (l₁ ++ c :: l₂).takeWhile p = l₁ := by
  induction l₁ with
  | nil => simp [List.takeWhile_cons, hc]
  | cons a t ih =>
    have ha : p a = true := h1 a (by simp)
    simp [List.takeWhile_cons, ha, ih (fun x hx => h1 x (by simp [hx]))]

theorem dropWhile_append_stop {p : Char → Bool} {l₁ l₂ : List Char}
    (h1 : ∀ c ∈ l₁, p c = true) {c : Char} (hc : p c = false) :
    (l₁ ++ c :: l₂).dropWhile p = c :: l₂ := by
  induction l₁ with
  | nil => simp [List.dropWhile_cons, hc]
  | cons a t ih =>
    have ha : p a = true := h1 a (by simp)
    simp [List.dropWhile_cons, ha, ih (fun x hx => h1 x (by simp [hx]))]

/-- Converse of `matchImageAt_some_eq`: at a position whose suffix starts with
a well-formed `![alt](path)` occurrence, the matcher succeeds and captures
exactly that occurrence. -/
theorem matchImageAt_of_shape {alt path rest : List Char}
    (ha : ∀ c ∈ alt, c ≠ ']') (hp : ∀ c ∈ path, c ≠ ')') (hne : path ≠ []) :
    matchImageAt (imageText alt path ++ rest) = some (alt, path, rest) := by
  rw [imageText_append]
  unfold matchImageAt
  have htw1 : (alt ++ ']' :: '(' :: (path ++ ')' :: rest)).takeWhile
      (fun c => decide (c ≠ ']')) = alt :=
    takeWhile_append_stop (fun x hx => by simpa using ha x hx) (by simp)
  have hdw1 : (alt ++ ']' :: '(' :: (path ++ ')' :: rest)).dropWhile
      (fun c => decide (c ≠ ']')) = ']' :: '(' :: (path ++ ')' :: rest) :=
    dropWhile_append_stop (fun x hx => by simpa using ha x hx) (by simp)
  have htw2 : (path ++ ')' :: rest).takeWhile (fun c => decide (c ≠ ')')) = path :=
    takeWhile_append_stop (fun x hx => by simpa using hp x hx) (by simp)
  have hdw2 : (path ++ ')' :: rest).dropWhile (fun c => decide (c ≠ ')')) = ')' :: rest :=
    dropWhile_append_stop (fun x hx => by simpa using hp x hx) (by simp)
  simp only [hdw1, htw1, hdw2, htw2]
  simp [hne]

/-- Left-to-right scan of `re.finditer` over `IMAGE_PATTERN`: try a match at
every position; on success record the reference and resume right after the
matched text (matches do not overlap), otherwise advance one character.
Mirrors `MarkdownParser.extract_images`. -/
def scanImages (l : List Char) (pos : Nat) : List ImageRef :=
  match l with
  | [] => []
  | c :: rest =>
    match hm : matchImageAt (c :: rest) with
    | some (alt, path, rest3) =>
      { original_text := imageText alt path
        alt_text := alt
        path := path
        start_pos := pos
        end_pos := pos + (alt.length + path.length + 5) } ::
        scanImages rest3 (pos + (alt.length + path.length + 5))
    | none => scanImages rest (pos + 1)
termination_by l.length
decreasing_by
  · obtain ⟨hshape, -, -, -⟩ := matchImageAt_some hm
    have hlen := congrArg List.length hshape
    simp at hlen
    simp
    omega
  · simp

/-- Model of `MarkdownParser.extract_images`: scan the whole content from
position 0. -/
def extractImages (content : List Char) : List ImageRef :=
  scanImages content 0

/-- Slice of a text between two positions, `text[i:j]` in Python terms. -/
def sliceAt (t : List Char) (i j : Nat) : List Char :=
  (t.drop i).take (j - i)

/-- Soundness of the scanner relative to the suffix scanned: every reference
produced lies at or after the scan position, its span length matches its
recorded text, its text is a well-formed image occurrence, and the slice of
the suffix at its (relative) span equals its recorded text. -/
theorem scanImages_sound (l : List Char) (pos : Nat) :
    ∀ r ∈ scanImages l pos,
      pos ≤ r.start_pos ∧
      r.end_pos = r.start_pos + r.original_text.length ∧
      r.original_text = imageText r.alt_text r.path ∧
      (∀ c ∈ r.alt_text, c ≠ ']') ∧ (∀ c ∈ r.path, c ≠ ')') ∧ r.path ≠ [] ∧
      (l.drop (r.start_pos - pos)).take r.original_text.length = r.original_text := by
  induction l, pos using scanImages.induct with
  | case1 pos => intro r hr; simp [scanImages] at hr
  | case2 pos c rest alt path rest3 hm ih =>
    intro r hr
    obtain ⟨hshape, halt, hpath, hne⟩ := matchImageAt_some_eq hm
    rw [scanImages, hm] at hr
    simp only [List.mem_cons] at hr
    rcases hr with rfl | hr
    · refine ⟨le_refl _, ?_, rfl, halt, hpath, hne, ?_⟩
      · simp [imageText_length]
      · simp only [Nat.sub_self, List.drop_zero, imageText_length]
        rw [hshape]
        have : alt.length + path.length + 5 = (imageText alt path).length := by
          simp [imageText_length]
        rw [this, List.take_left]
    · obtain ⟨ha, hb, hc, hd, he, hf, hg⟩ := ih r hr
      have hlen : (imageText alt path).length = alt.length + path.length + 5 :=
        imageText_length alt path
      refine ⟨by omega, hb, hc, hd, he, hf, ?_⟩
      have hdrop : (c :: rest).drop (r.start_pos - pos) =
          rest3.drop (r.start_pos - (pos + (alt.length + path.length + 5))) := by
        rw [hshape]
        have h1 : r.start_pos - pos =
            (imageText alt path).length +
              (r.start_pos - (pos + (alt.length + path.length + 5))) := by
          rw [hlen]; omega
        rw [h1, List.drop_append]
      rw [hdrop]
      exact hg
  | case3 pos c rest hm ih =>
    intro r hr
    rw [scanImages, hm] at hr
    obtain ⟨ha, hb, hc, hd, he, hf, hg⟩ := ih r hr
    refine ⟨by omega, hb, hc, hd, he, hf, ?_⟩
    have hdrop : (c :: rest).drop (r.start_pos - pos) =
        rest.drop (r.start_pos - (pos + 1)) := by
      have h1 : r.start_pos - pos = (r.start_pos - (pos + 1)) + 1 := by omega
      rw [h1]
      simp [List.drop_succ_cons]
    rw [hdrop]
    exact hg

/-- References are produced in left-to-right order with non-overlapping,
increasing spans: each reference ends at or before the next one starts. -/
theorem scanImages_chain (l : List Char) (pos : Nat) :
    (scanImages l pos).Chain' (fun a b => a.end_pos ≤ b.start_pos) := by
  induction l, pos using scanImages.induct with
  | case1 pos => simp [scanImages]
  | case2 pos c rest alt path rest3 hm ih =>
    rw [scanImages, hm]
    rw [List.chain'_cons']
    refine ⟨?_, ih⟩
    intro b hb
    have hmem : b ∈ scanImages rest3 (pos + (alt.length + path.length + 5)) :=
      List.mem_of_mem_head? hb
    have := (scanImages_sound rest3 (pos + (alt.length + path.length + 5)) b hmem).1
    simpa using this
  | case3 pos c rest hm ih =>
    rw [scanImages, hm]
    exact ih

/-- A well-formed occurrence of the inline-image syntax at position `s` of
text `t`: the slice at `s` reads `![alt](path)` where the alt run contains no
closing bracket and the path run is a nonempty run without closing
parenthesis.  This is exactly where `IMAGE_PATTERN` can match. -/
def IsImageMatchAt (t : List Char) (s : Nat) (alt path : List Char) : Prop :=
  (∀ c ∈ alt, c ≠ ']') ∧ (∀ c ∈ path, c ≠ ')') ∧ path ≠ [] ∧
    (t.drop s).take (alt.length + path.length + 5) = imageText alt path

/-- A successful match of the scanner at the head of the suffix yields a
well-formed occurrence, and conversely. -/
theorem isImageMatchAt_iff (t : List Char) (s : Nat) (alt path : List Char) :
    IsImageMatchAt t s alt path ↔
      ∃ rest, matchImageAt (t.drop s) = some (alt, path, rest) := by
  constructor
  · rintro ⟨ha, hp, hne, hsl⟩
    refine ⟨(t.drop s).drop (alt.length + path.length + 5), ?_⟩
    have hdecomp : t.drop s = imageText alt path ++
        (t.drop s).drop (alt.length + path.length + 5) := by
      conv_lhs => rw [← List.take_append_drop (alt.length + path.length + 5) (t.drop s)]
      rw [hsl]
    conv_lhs => rw [hdecomp]
    exact @matchImageAt_of_shape alt path ((t.drop s).drop (alt.length + path.length + 5))
      ha hp hne
  · rintro ⟨rest, hm⟩
    obtain ⟨hshape, ha, hp, hne⟩ := matchImageAt_some_eq hm
    refine ⟨ha, hp, hne, ?_⟩
    rw [hshape]
    have : alt.length + path.length + 5 = (imageText alt path).length := by
      simp [imageText_length]
    rw [this, List.take_left]

/-- Completeness of the scanner: every well-formed occurrence at or after the
scan position either is reported (same start) or begins strictly inside a
reported match's span (finditer consumes matched text, so overlapped
occurrences are skipped). -/
theorem scanImages_complete (t l : List Char) (pos : Nat) :
    l = t.drop pos → ∀ s alt path, pos ≤ s → IsImageMatchAt t s alt path →
      (∃ r ∈ scanImages l pos, r.start_pos = s) ∨
      (∃ r ∈ scanImages l pos, r.start_pos < s ∧ s < r.end_pos) := by
  induction l, pos using scanImages.induct with
  | case1 pos =>
    intro hl s alt path hs hmatch
    exfalso
    obtain ⟨-, -, hne, hsl⟩ := hmatch
    have h1 : t.length ≤ pos := List.drop_eq_nil_iff.mp hl.symm
    have hnil : t.drop s = [] := List.drop_eq_nil_iff.mpr (by omega)
    rw [hnil] at hsl
    have hlen := congrArg List.length hsl
    rw [imageText_length] at hlen
    simp at hlen
  | case2 pos c rest alt0 path0 rest3 hm ih =>
    intro hl s alt path hs hmatch
    obtain ⟨hshape, -, -, -⟩ := matchImageAt_some_eq hm
    rw [scanImages, hm]
    by_cases hcase1 : s = pos
    · left
      refine ⟨_, List.mem_cons_self _ _, ?_⟩
      simp [hcase1]
    · by_cases hcase2 : s < pos + (alt0.length + path0.length + 5)
      · right
        refine ⟨_, List.mem_cons_self _ _, ?_, ?_⟩
        · show pos < s
          omega
        · show s < pos + (alt0.length + path0.length + 5)
          omega
      · -- the occurrence lies at or after the end of the reported match
        have h2 : t.drop pos = imageText alt0 path0 ++ rest3 := by rw [← hl, hshape]
        have h3 : (t.drop pos).drop (alt0.length + path0.length + 5) = rest3 := by
          rw [h2]
          have h4 : alt0.length + path0.length + 5 = (imageText alt0 path0).length :=
            (imageText_length _ _).symm
          rw [h4, List.drop_left]
        have hrest3 : rest3 = t.drop (pos + (alt0.length + path0.length + 5)) := by
          rw [← h3, List.drop_drop, Nat.add_comm]
        have := ih hrest3 s alt path (by omega) hmatch
        rcases this with ⟨r, hr, hrs⟩ | ⟨r, hr, hrs⟩
        · exact Or.inl ⟨r, List.mem_cons_of_mem _ hr, hrs⟩
        · exact Or.inr ⟨r, List.mem_cons_of_mem _ hr, hrs⟩
  | case3 pos c rest hm ih =>
    intro hl s alt path hs hmatch
    rw [scanImages, hm]
    by_cases hcase1 : s = pos
    · exfalso
      subst hcase1
      obtain ⟨rest', hm'⟩ := (isImageMatchAt_iff t s alt path).mp hmatch
      rw [← hl] at hm'
      rw [hm'] at hm
      exact Option.noConfusion hm
    · have hrest : rest = t.drop (pos + 1) := by
        have h1 : (t.drop pos).drop 1 = rest := by rw [← hl]; rfl
        rw [← h1, List.drop_drop, Nat.add_comm]
      exact ih hrest s alt path (by omega) hmatch

/-- Cancellation at the first occurrence of a delimiter: if neither left part
contains the delimiter, the decomposition around it is unique. -/
theorem append_stop_inj {c : Char} {x₁ x₂ r₁ r₂ : List Char}
    (h1 : ∀ a ∈ x₁, a ≠ c) (h2 : ∀ a ∈ x₂, a ≠ c)
    (h : x₁ ++ c :: r₁ = x₂ ++ c :: r₂) : x₁ = x₂ ∧ r₁ = r₂ := by
  induction x₁ generalizing x₂ with
  | nil =>
    cases x₂ with
    | nil => simpa using h
    | cons b t =>
      simp only [List.nil_append, List.cons_append, List.cons.injEq] at h
      exact absurd h.1.symm (h2 b (by simp))
  | cons a t ih =>
    cases x₂ with
    | nil =>
      simp only [List.nil_append, List.cons_append, List.cons.injEq] at h
      exact absurd h.1 (h1 a (by simp))
    | cons b t₂ =>
      simp only [List.cons_append, List.cons.injEq] at h
      obtain ⟨hab, htail⟩ := h
      obtain ⟨he1, he2⟩ := ih (fun x hx => h1 x (by simp [hx]))
        (fun x hx => h2 x (by simp [hx])) htail
      exact ⟨by rw [hab, he1], he2⟩

/-- The matched text `![alt](path)` determines alt and path: a parse of the
exact matched substring is unique. -/
theorem imageText_inj {a₁ p₁ a₂ p₂ : List Char}
    (h1 : ∀ c ∈ a₁, c ≠ ']') (h2 : ∀ c ∈ a₂, c ≠ ']')
    (h3 : ∀ c ∈ p₁, c ≠ ')') (h4 : ∀ c ∈ p₂, c ≠ ')')
    (h : imageText a₁ p₁ = imageText a₂ p₂) : a₁ = a₂ ∧ p₁ = p₂ := by
  unfold imageText at h
  simp only [List.cons.injEq, true_and] at h
  obtain ⟨ha, htail⟩ := append_stop_inj h1 h2 h
  simp only [List.cons.injEq, true_and] at htail
  obtain ⟨hp, -⟩ := append_stop_inj h3 h4 htail
  exact ⟨ha, hp⟩

/-- Soundness of `extractImages` on a whole document. -/
theorem extractImages_sound (t : List Char) :
    ∀ r ∈ extractImages t,
      r.end_pos = r.start_pos + r.original_text.length ∧
      r.original_text = imageText r.alt_text r.path ∧
      (∀ c ∈ r.alt_text, c ≠ ']') ∧ (∀ c ∈ r.path, c ≠ ')') ∧ r.path ≠ [] ∧
      sliceAt t r.start_pos r.end_pos = r.original_text := by
  intro r hr
  obtain ⟨-, hb, hc, hd, he, hf, hg⟩ := scanImages_sound t 0 r hr
  refine ⟨hb, hc, hd, he, hf, ?_⟩
  unfold sliceAt
  have : r.end_pos - r.start_pos = r.original_text.length := by omega
  rw [this]
  simpa using hg

/-- In `extractImages` output, two references with the same recorded matched
substring reference the same path (the matched text determines the path). -/
theorem extractImages_text_determines_path (t : List Char) :
    ∀ r ∈ extractImages t, ∀ r' ∈ extractImages t,
      r.original_text = r'.original_text → r.path = r'.path := by
  intro r hr r' hr' htext
  obtain ⟨-, hc, hd, he, -, -⟩ := extractImages_sound t r hr
  obtain ⟨-, hc', hd', he', -, -⟩ := extractImages_sound t r' hr'
  rw [hc, hc'] at htext
  exact (imageText_inj hd hd' he he' htext).2

/-- Character class of the emoji regex in `uploader.remove_emojis`: union of
the eight Unicode code-point ranges listed in the source. -/
def isEmojiChar (c : Char) : Bool :=
  decide ((0x1F600 ≤ c.toNat ∧ c.toNat ≤ 0x1F64F) ∨
    (0x1F300 ≤ c.toNat ∧ c.toNat ≤ 0x1F5FF) ∨
    (0x1F680 ≤ c.toNat ∧ c.toNat ≤ 0x1F6FF) ∨
    (0x1F1E0 ≤ c.toNat ∧ c.toNat ≤ 0x1F1FF) ∨
    (0x1F900 ≤ c.toNat ∧ c.toNat ≤ 0x1F9FF) ∨
    (0x1FA00 ≤ c.toNat ∧ c.toNat ≤ 0x1FA6F) ∨
    (0x1FA70 ≤ c.toNat ∧ c.toNat ≤ 0x1FAFF) ∨
    (0x1F004 ≤ c.toNat ∧ c.toNat ≤ 0x1F0CF))

/-- Model of `remove_emojis`: the regex substitutes every maximal run of
emoji-class characters by the empty string, which deletes exactly the
characters of the class and keeps all others in order. -/
def removeEmojis : List Char → List Char
  | [] => []
  | c :: t => if isEmojiChar c then removeEmojis t else c :: removeEmojis t

theorem removeEmojis_no_emoji (l : List Char) :
    ∀ c ∈ removeEmojis l, isEmojiChar c = false := by
  induction l with
  | nil => intro c hc; simp [removeEmojis] at hc
  | cons a t ih =>
    intro c hc
    by_cases ha : isEmojiChar a
    · rw [removeEmojis, if_pos ha] at hc
      exact ih c hc
    · rw [removeEmojis, if_neg ha] at hc
      rcases List.mem_cons.mp hc with rfl | hc
      · simpa using ha
      · exact ih c hc

theorem removeEmojis_of_no_emoji {l : List Char}
    (h : ∀ c ∈ l, isEmojiChar c = false) : removeEmojis l = l := by
  induction l with
  | nil => rfl
  | cons a t ih =>
    have ha : isEmojiChar a = false := h a (by simp)
    rw [removeEmojis, if_neg (by simp [ha])]
    rw [ih (fun c hc => h c (by simp [hc]))]

/-- Boolean check that `p` is an initial segment of `l`. -/
def leadsWith : List Char → List Char → Bool
  | [], _ => true
  | _ :: _, [] => false
  | p :: ps, c :: cs => decide (p = c) && leadsWith ps cs

theorem leadsWith_self_append (p r : List Char) : leadsWith p (p ++ r) = true := by
  induction p with
  | nil => rfl
  | cons a t ih => simp [leadsWith, ih]

theorem leadsWith_eq_decomp {p l : List Char} (h : leadsWith p l = true) :
    l = p ++ l.drop p.length := by
  induction p generalizing l with
  | nil => simp
  | cons a t ih =>
    cases l with
    | nil => simp [leadsWith] at h
    | cons c cs =>
      rw [leadsWith, Bool.and_eq_true] at h
      obtain ⟨h1, h2⟩ := h
      have : a = c := by simpa using h1
      subst this
      simpa using ih h2

/-- Find the first occurrence of `old` in `s`, scanning left to right (the
search underlying Python `str.replace` and `str.count`): returns the text
strictly before the occurrence and the text strictly after it. -/
def findOcc (old : List Char) : List Char → Option (List Char × List Char)
  | [] => if old = [] then some ([], []) else none
  | c :: t =>
    if leadsWith old (c :: t) then some ([], (c :: t).drop old.length)
    else (findOcc old t).map (fun pr => (c :: pr.1, pr.2))

theorem findOcc_some_decomp {old s pre post : List Char}
    (h : findOcc old s = some (pre, post)) : s = pre ++ old ++ post := by
  induction s generalizing pre post with
  | nil =>
    rw [findOcc] at h
    split at h
    · next hold =>
      subst hold
      simp only [Option.some.injEq, Prod.mk.injEq] at h
      obtain ⟨h1, h2⟩ := h
      subst h1; subst h2
      simp
    · exact absurd h (by simp)
  | cons c t ih =>
    rw [findOcc] at h
    split at h
    · next hlead =>
      have hdec := leadsWith_eq_decomp hlead
      simp only [Option.some.injEq, Prod.mk.injEq] at h
      obtain ⟨h1, h2⟩ := h
      rw [← h1, ← h2]
      simpa using hdec
    · next hlead =>
      cases hfind : findOcc old t with
      | none => rw [hfind] at h; simp at h
      | some pr =>
        rw [hfind] at h
        simp only [Option.map_some', Option.some.injEq, Prod.mk.injEq] at h
        obtain ⟨h1, h2⟩ := h
        have := ih (show findOcc old t = some (pr.1, pr.2) by rw [hfind])
        rw [← h1, ← h2]
        simpa using this

/-- The pattern occurs somewhere in the text (as a contiguous substring). -/
def HasOcc (old l : List Char) : Prop :=
  ∃ u v, l = u ++ old ++ v

theorem hasOcc_of_lead {old l : List Char} (h : leadsWith old l = true) :
    HasOcc old l :=
  ⟨[], l.drop old.length, by simpa using leadsWith_eq_decomp h⟩

theorem findOcc_none_not_hasOcc {old s : List Char}
    (h : findOcc old s = none) : ¬ HasOcc old s := by
  induction s with
  | nil =>
    rintro ⟨u, v, huv⟩
    rw [findOcc] at h
    have hold : old ≠ [] := by
      intro hc
      rw [if_pos hc] at h
      exact Option.noConfusion h
    have : old = [] := by
      have := congrArg List.length huv
      simp at this
      exact List.eq_nil_of_length_eq_zero (by omega)
    exact hold this
  | cons c t ih =>
    rintro ⟨u, v, huv⟩
    rw [findOcc] at h
    split at h
    · exact Option.noConfusion h
    · next hlead =>
      cases u with
      | nil =>
        simp only [List.nil_append] at huv
        exact hlead (by rw [huv]; exact leadsWith_self_append _ _)
      | cons a u' =>
        simp only [List.cons_append, List.cons.injEq] at huv
        obtain ⟨-, huv2⟩ := huv
        have hnone : findOcc old t = none := by
          cases hfind : findOcc old t with
          | none => rfl
          | some pr => rw [hfind] at h; simp at h
        exact ih hnone ⟨u', v, huv2⟩

theorem findOcc_some_pre_no_occ {old s pre post : List Char} (hold : old ≠ [])
    (h : findOcc old s = some (pre, post)) : ¬ HasOcc old pre := by
  induction s generalizing pre post with
  | nil =>
    rw [findOcc, if_neg hold] at h
    exact Option.noConfusion h
  | cons c t ih =>
    rw [findOcc] at h
    split at h
    · next hlead =>
      simp only [Option.some.injEq, Prod.mk.injEq] at h
      obtain ⟨h1, -⟩ := h
      rintro ⟨u, v, huv⟩
      rw [← h1] at huv
      have := congrArg List.length huv
      simp at this
      have : old.length = 0 := by omega
      exact hold (List.eq_nil_of_length_eq_zero this)
    · next hlead =>
      cases hfind : findOcc old t with
      | none => rw [hfind] at h; simp at h
      | some pr =>
        rw [hfind] at h
        simp only [Option.map_some', Option.some.injEq, Prod.mk.injEq] at h
        obtain ⟨h1, -⟩ := h
        rintro ⟨u, v, huv⟩
        rw [← h1] at huv
        cases u with
        | nil =>
          -- an occurrence at the very head would have made leadsWith succeed
          simp only [List.nil_append] at huv
          have hdecomp := findOcc_some_decomp
            (show findOcc old t = some (pr.1, pr.2) by rw [hfind])
          have hct : c :: t = old ++ (v ++ (old ++ pr.2)) := by
            rw [hdecomp, ← List.cons_append, ← List.cons_append, huv]
            simp
          exact hlead (by rw [hct]; exact leadsWith_self_append _ _)
        | cons a u' =>
          simp only [List.cons_append, List.cons.injEq] at huv
          obtain ⟨-, huv2⟩ := huv
          exact ih (show findOcc old t = some (pr.1, pr.2) by rw [hfind])
            ⟨u', v, huv2⟩

/-- Python `str.replace(old, new)` on character lists: replace every
non-overlapping occurrence of `old`, scanning left to right.  For the empty
pattern Python inserts `new` before every character and at the end; the
pipeline only ever replaces nonempty matched substrings. -/
def pyReplace (s old new : List Char) : List Char :=
  if h : old = [] then new ++ s.foldr (fun c acc => c :: (new ++ acc)) []
  else
    match hf : findOcc old s with
    | none => s
    | some (pre, post) => pre ++ new ++ pyReplace post old new
termination_by s.length
decreasing_by
  have hd := findOcc_some_decomp hf
  have := congrArg List.length hd
  simp at this
  have holdlen : 0 < old.length := by
    cases old with
    | nil => exact absurd rfl h
    | cons a t => simp
  omega

/-- Python `str.count(old)` on character lists: number of non-overlapping
occurrences scanning left to right; for the empty pattern Python counts
`len(s) + 1` positions. -/
def pyCount (s old : List Char) : Nat :=
  if h : old = [] then s.length + 1
  else
    match hf : findOcc old s with
    | none => 0
    | some (_, post) => 1 + pyCount post old
termination_by s.length
decreasing_by
  have hd := findOcc_some_decomp hf
  have := congrArg List.length hd
  simp at this
  have holdlen : 0 < old.length := by
    cases old with
    | nil => exact absurd rfl h
    | cons a t => simp
  omega

theorem pyReplace_of_none {s old : List Char} (new : List Char) (hold : old ≠ [])
    (hf : findOcc old s = none) : pyReplace s old new = s := by
  rw [pyReplace, dif_neg hold]
  split
  · rfl
  · next pre post hf' => rw [hf] at hf'; exact absurd hf' (by simp)

theorem pyReplace_of_some {s old pre post : List Char} (new : List Char) (hold : old ≠ [])
    (hf : findOcc old s = some (pre, post)) :
    pyReplace s old new = pre ++ new ++ pyReplace post old new := by
  rw [pyReplace, dif_neg hold]
  split
  · next hf' => rw [hf] at hf'; exact absurd hf' (by simp)
  · next pre' post' hf' =>
    rw [hf] at hf'
    simp only [Option.some.injEq, Prod.mk.injEq] at hf'
    rw [hf'.1, hf'.2]

theorem pyCount_of_none {s old : List Char} (hold : old ≠ [])
    (hf : findOcc old s = none) : pyCount s old = 0 := by
  rw [pyCount, dif_neg hold]
  split
  · rfl
  · next pre post hf' => rw [hf] at hf'; exact absurd hf' (by simp)

theorem pyCount_of_some {s old pre post : List Char} (hold : old ≠ [])
    (hf : findOcc old s = some (pre, post)) :
    pyCount s old = 1 + pyCount post old := by
  rw [pyCount, dif_neg hold]
  split
  · next hf' => rw [hf] at hf'; exact absurd hf' (by simp)
  · next pre' post' hf' =>
    rw [hf] at hf'
    simp only [Option.some.injEq, Prod.mk.injEq] at hf'
    rw [hf'.2]

/-- Join a list of parts with a separator between consecutive parts. -/
def joinWith (sep : List Char) : List (List Char) → List Char
  | [] => []
  | [p] => p
  | p :: ps => p ++ sep ++ joinWith sep ps

theorem joinWith_cons_of_ne_nil (sep p : List Char) {ps : List (List Char)}
    (h : ps ≠ []) : joinWith sep (p :: ps) = p ++ sep ++ joinWith sep ps := by
  cases ps with
  | nil => exact absurd rfl h
  | cons q qs => rfl

/-- Full-replacement decomposition for Python `str.replace` with a nonempty
pattern: the source text splits as `p₀ ++ old ++ p₁ ++ ... ++ old ++ p_k`
where `k` is the `str.count` occurrence count and no part contains a further
occurrence of the pattern, and the replacement result substitutes `new` for
every one of the `k` separators — every occurrence is replaced, not only the
first. -/
theorem pyReplace_replaces_all (s old new : List Char) (hold : old ≠ []) :
    ∃ parts : List (List Char),
      parts.length = pyCount s old + 1 ∧
      (∀ p ∈ parts, ¬ HasOcc old p) ∧
      s = joinWith old parts ∧
      pyReplace s old new = joinWith new parts := by
  induction s, old, new using pyReplace.induct with
  | case1 s new => exact absurd rfl hold
  | case2 s old new hold' hf =>
    refine ⟨[s], ?_, ?_, rfl, ?_⟩
    · rw [pyCount_of_none hold hf]
      simp
    · intro p hp
      rw [List.mem_singleton] at hp
      subst hp
      exact findOcc_none_not_hasOcc hf
    · rw [pyReplace_of_none new hold hf]
      rfl
  | case3 s old new hold' pre post hf ih =>
    obtain ⟨parts, hlen, hnocc, hdecomp, hrepl⟩ := ih hold
    have hne : parts ≠ [] := by
      intro hc
      rw [hc] at hlen
      simp at hlen
    refine ⟨pre :: parts, ?_, ?_, ?_, ?_⟩
    · rw [pyCount_of_some hold hf]
      simp only [List.length_cons, hlen]
      omega
    · intro p hp
      rcases List.mem_cons.mp hp with rfl | hp
      · exact findOcc_some_pre_no_occ hold hf
      · exact hnocc p hp
    · rw [joinWith_cons_of_ne_nil old pre hne, ← hdecomp]
      simpa using findOcc_some_decomp hf
    · rw [joinWith_cons_of_ne_nil new pre hne, ← hrepl]
      rw [pyReplace_of_some new hold hf]

/-- Result record of `mermaid_converter.ConversionResult`. -/
structure ConversionResult where
  success : Bool
  output_path : Option (List Char)
  error_message : Option (List Char)
  deriving DecidableEq, Repr

/-- Outcome of the external `mmdc` invocation through `subprocess.run`:
normal completion with a return code and captured stderr/stdout, expiry of
the timeout (`subprocess.TimeoutExpired`), or any other raised exception. -/
inductive ExecOutcome where
  | completed (returncode : Int) (stderr stdout : List Char)
  | timeout
  | error (msg : List Char)
  deriving DecidableEq, Repr

/-- Timeout in seconds passed to `subprocess.run` by the source. -/
def mmdcTimeoutSeconds : Nat := 60

/-- Failure message when the converter exits zero without producing the
output file. -/
def msgOutputMissing : List Char := "出力ファイルが生成されませんでした".data

/-- Failure message on timeout. -/
def msgTimeout : List Char := "変換がタイムアウトしました (60秒)".data

/-- Model of `MermaidConverter.convert`: given the outcome of the external
process and whether the expected output file exists afterwards, build the
`ConversionResult` exactly as the source does.  A nonzero exit code fails
with stderr (or stdout when stderr is empty); a zero exit without the output
file fails with the output-missing message; otherwise success with the
output path.  Timeouts and unexpected exceptions are caught and returned as
failure results; the model is a total function, so no exception escapes. -/
def MermaidConverter.convert (outputFile : List Char) (outcome : ExecOutcome)
    (outputExists : Bool) : ConversionResult :=
  match outcome with
  | .completed rc stderr stdout =>
    if rc ≠ 0 then
      { success := false, output_path := none,
        error_message := some (if stderr ≠ [] then stderr else stdout) }
    else if outputExists = false then
      { success := false, output_path := none, error_message := some msgOutputMissing }
    else
      { success := true, output_path := some outputFile, error_message := none }
  | .timeout =>
    { success := false, output_path := none, error_message := some msgTimeout }
  | .error msg =>
    { success := false, output_path := none, error_message := some msg }

/-- Attachment record of `backlog_client.Attachment`. -/
structure Attachment where
  id : Nat
  name : List Char
  size : Nat
  deriving DecidableEq, Repr

/-- Events of one `WikiUploader.upload` invocation in execution order:
local pipeline stages and remote calls. -/
inductive Event where
  | loaded
  | scanned
  | rendered
  | sanitized
  | pageWrite (content : List Char)
  | uploadCall (path : List Char)
  | linkCall (ids : List Nat)
  | secondWrite (content : List Char)
  | cleaned
  deriving DecidableEq, Repr

/-- Python dict lookup on an insertion-ordered association list. -/
def alookup {β : Type} (k : List Char) : List (List Char × β) → Option β
  | [] => none
  | (k', v) :: t => if k' = k then some v else alookup k t

/-- Python dict assignment `d[k] = v`: overwrite the value in place when the
key exists, else append the new binding at the end. -/
def dictInsert {β : Type} (k : List Char) (v : β) :
    List (List Char × β) → List (List Char × β)
  | [] => [(k, v)]
  | (k', v') :: t => if k' = k then (k, v) :: t else (k', v') :: dictInsert k v t

theorem alookup_dictInsert_self {β : Type} (k : List Char) (v : β)
    (l : List (List Char × β)) : alookup k (dictInsert k v l) = some v := by
  induction l with
  | nil => simp [dictInsert, alookup]
  | cons e t ih =>
    obtain ⟨ek, ev⟩ := e
    rw [dictInsert]
    by_cases h : ek = k
    · rw [if_pos h, alookup, if_pos rfl]
    · rw [if_neg h, alookup, if_neg h]
      exact ih

theorem alookup_dictInsert_ne {β : Type} {k k' : List Char} (h : k' ≠ k) (v : β)
    (l : List (List Char × β)) : alookup k' (dictInsert k v l) = alookup k' l := by
  induction l with
  | nil =>
    have h2 : k ≠ k' := fun hc => h hc.symm
    simp [dictInsert, alookup, h2]
  | cons e t ih =>
    obtain ⟨ek, ev⟩ := e
    rw [dictInsert]
    by_cases he : ek = k
    · rw [if_pos he, alookup, if_neg (fun hc => h hc.symm), alookup,
        if_neg (by rw [he]; exact fun hc => h hc.symm)]
    · rw [if_neg he, alookup, alookup]
      by_cases hek : ek = k'
      · rw [if_pos hek, if_pos hek]
      · rw [if_neg hek, if_neg hek]
        exact ih

theorem alookup_some_mem {β : Type} {k : List Char} {v : β} :
    ∀ {l : List (List Char × β)}, alookup k l = some v → (k, v) ∈ l := by
  intro l
  induction l with
  | nil => intro h; exact absurd h (by simp [alookup])
  | cons e t ih =>
    obtain ⟨ek, ev⟩ := e
    intro h
    rw [alookup] at h
    by_cases hk : ek = k
    · rw [if_pos hk] at h
      simp only [Option.some.injEq] at h
      subst hk; subst h
      simp
    · rw [if_neg hk] at h
      exact List.mem_cons_of_mem _ (ih h)

theorem dictInsert_ne_nil {β : Type} (k : List Char) (v : β)
    (l : List (List Char × β)) : dictInsert k v l ≠ [] := by
  cases l with
  | nil => simp [dictInsert]
  | cons e t =>
    obtain ⟨ek, ev⟩ := e
    rw [dictInsert]
    by_cases h : ek = k
    · rw [if_pos h]; simp
    · rw [if_neg h]; simp

/-- Session environment for one `WikiUploader.upload` call.  The remote
service issues consecutive space-scoped attachment ids starting at `firstId`
and reports `fileSize p` bytes for an uploaded file `p`; `wikiId`/`isNew`
describe the result of `create_or_update_wiki`; `linkFails` makes
`attach_files_to_wiki` raise (a RemoteError caught by the source);
`pageScopedId i` is the page-scoped id issued at link time for the
attachment with upload id `i`. -/
structure UploadEnv where
  firstId : Nat
  fileSize : List Char → Nat
  wikiId : Nat
  isNew : Bool
  linkFails : Bool
  pageScopedId : Nat → Nat

/-- Final path component (Python `Path(p).name`): the suffix after the last
slash; the remote service stores an uploaded file under this name. -/
def basename (p : List Char) : List Char :=
  (p.reverse.takeWhile (fun c => decide (c ≠ '/'))).reverse

/-- Mutable state of the local-image upload loop in `WikiUploader.upload`:
the two dicts `uploaded_by_path` and `uploaded_attachments`, the next id the
service will issue, and the paths of the `upload_attachment` calls made so
far, in order. -/
structure UploadState where
  uploaded_by_path : List (List Char × Attachment)
  uploaded_attachments : List (List Char × Attachment)
  nextId : Nat
  calls : List (List Char)
  deriving Repr

/-- One iteration of the local-image loop (uploader lines 199-215): if the
resolved path has not been uploaded yet, call `upload_attachment` (the
service issues the next id and stores the file's basename), record the
attachment under the path; either way map the reference's original matched
text to the attachment for that path. -/
def processImage (env : UploadEnv) (st : UploadState)
    (x : ImageRef × List Char) : UploadState :=
  match alookup x.2 st.uploaded_by_path with
  | none =>
    let att : Attachment :=
      { id := st.nextId, name := basename x.2, size := env.fileSize x.2 }
    { uploaded_by_path := dictInsert x.2 att st.uploaded_by_path
      uploaded_attachments := dictInsert x.1.original_text att st.uploaded_attachments
      nextId := st.nextId + 1
      calls := st.calls ++ [x.2] }
  | some att =>
    { st with
      uploaded_attachments := dictInsert x.1.original_text att st.uploaded_attachments }

/-- Mutable state of the mermaid-image upload loop (uploader lines 217-225):
the `mermaid_attachments` dict, next id, and the upload calls made. -/
structure MermaidState where
  mermaid_attachments : List (List Char × Attachment)
  nextId : Nat
  calls : List (List Char)
  deriving Repr

/-- One iteration of the mermaid-image loop: upload the rendered image
unconditionally (no dedup) and map the block's original text to the
attachment. -/
def processMermaid (env : UploadEnv) (st : MermaidState)
    (x : List Char × List Char) : MermaidState :=
  let att : Attachment :=
    { id := st.nextId, name := basename x.2, size := env.fileSize x.2 }
  { mermaid_attachments := dictInsert x.1 att st.mermaid_attachments
    nextId := st.nextId + 1
    calls := st.calls ++ [x.2] }

/-- Model of `WikiUploader._convert_mermaid_blocks`: nothing is rendered when
the CLI is unavailable or there are no blocks; otherwise each block is
converted in order and the successful (block text, output path) pairs are
collected in order.  The external conversion is abstracted by the per-index
`render` oracle (`some p` means the conversion of block `i` succeeded and
produced the image file `p`). -/
def convertMermaidBlocks (available : Bool)
    (render : Nat → List Char → Option (List Char))
    (blocks : List (List Char × List Char)) : List (List Char × List Char) :=
  if available = false ∨ blocks = [] then []
  else blocks.enum.filterMap
    (fun ib => (render ib.1 ib.2.2).map (fun p => (ib.2.1, p)))

/-- The attachments known to the service in this session (used to model the
link response, which reports each linked attachment's stored name). -/
def attachmentsOfSession (stL : UploadState) (stM : MermaidState) : List Attachment :=
  stL.uploaded_by_path.map Prod.snd ++ stM.mermaid_attachments.map Prod.snd

/-- Model of the `attach_files_to_wiki` response: one record per linked
attachment id, carrying the stored display name and the freshly issued
page-scoped id. -/
def linkResponse (env : UploadEnv) (atts : List Attachment) (ids : List Nat) :
    List (List Char × Nat) :=
  ids.filterMap (fun i =>
    (atts.find? (fun a => decide (a.id = i))).map (fun a => (a.name, env.pageScopedId i)))

/-- Build `filename_to_new_attachment_id` from the link response (uploader
lines 261-263). -/
def buildFilenameMap (resp : List (List Char × Nat)) : List (List Char × Nat) :=
  resp.foldl (fun m nr => dictInsert nr.1 nr.2 m) []

/-- The Backlog embed tag `![image][name]` written by the rewrite loop. -/
def backlogImageTag (name : List Char) : List Char :=
  "![image][".data ++ name ++ "]".data

/-- One iteration of the reference-rewrite loop (uploader lines 276-287 for
images, 289-298 for mermaid blocks): fetch the page-scoped id for the
attachment's name; Python's truthiness test `if new_attachment_id:` skips
both a missing entry and an entry whose id is 0; otherwise replace every
occurrence of the recorded original text with the embed tag. -/
def rewriteOne (filenameMap : List (List Char × Nat)) (content : List Char)
    (entry : List Char × Attachment) : List Char :=
  match alookup entry.2.name filenameMap with
  | none => content
  | some newId =>
    if newId = 0 then content
    else pyReplace content entry.1 (backlogImageTag entry.2.name)

/-- Fold of `rewriteOne` over the recorded entries in dict order. -/
def rewriteAll (filenameMap : List (List Char × Nat)) (content : List Char)
    (entries : List (List Char × Attachment)) : List Char :=
  entries.foldl (rewriteOne filenameMap) content

/-- The local images of a document: every extracted reference whose path
resolves to an existing local file, paired with the resolved path
(`MarkdownParser.get_all_local_images`; `resolve` abstracts
`resolve_image_path`, which depends only on the reference's path text). -/
def localImages (content : List Char) (resolve : List Char → Option (List Char)) :
    List (ImageRef × List Char) :=
  (extractImages content).filterMap (fun r => (resolve r.path).map (fun p => (r, p)))

/-- Result of one modelled upload invocation: the event trace in execution
order plus the final in-memory state and summary counters. -/
structure UploadRun where
  trace : List Event
  uploaded_by_path : List (List Char × Attachment)
  uploaded_attachments : List (List Char × Attachment)
  mermaid_attachments : List (List Char × Attachment)
  all_attachment_ids : List Nat
  filenameMap : List (List Char × Nat)
  firstContent : List Char
  finalContent : List Char
  wikiId : Nat
  isNew : Bool
  localImagesUploaded : Nat
  mermaidImagesUploaded : Nat
  totalAttachments : Nat

/-- State of the local-image upload loop at the end of step 3a (uploader
lines 199-215), starting from empty dicts and the service's first id. -/
def sessionStL (env : UploadEnv) (content : List Char)
    (resolve : List Char → Option (List Char)) : UploadState :=
  (localImages content resolve).foldl (processImage env)
    { uploaded_by_path := [], uploaded_attachments := [],
      nextId := env.firstId, calls := [] }

/-- State of the mermaid-image upload loop at the end of step 3b (uploader
lines 217-225); ids continue from where the local loop stopped. -/
def sessionStM (env : UploadEnv) (content : List Char)
    (resolve : List Char → Option (List Char))
    (blocks : List (List Char × List Char)) (available : Bool)
    (render : Nat → List Char → Option (List Char)) : MermaidState :=
  (convertMermaidBlocks available render blocks).foldl (processMermaid env)
    { mermaid_attachments := [],
      nextId := (sessionStL env content resolve).nextId, calls := [] }

/-- The deduplicated attachment ids sent to `attach_files_to_wiki`
(uploader lines 244-248; `list(set(...))` modelled by `dedup`). -/
def sessionIds (env : UploadEnv) (content : List Char)
    (resolve : List Char → Option (List Char))
    (blocks : List (List Char × List Char)) (available : Bool)
    (render : Nat → List Char → Option (List Char)) : List Nat :=
  ((sessionStL env content resolve).uploaded_attachments.map (fun e => e.2.id) ++
    (sessionStM env content resolve blocks available render).mermaid_attachments.map
      (fun e => e.2.id)).dedup

/-- `filename_to_new_attachment_id` after step 5: empty when there was
nothing to link or the link call raised, else built from the link
response. -/
def sessionFilenameMap (env : UploadEnv) (content : List Char)
    (resolve : List Char → Option (List Char))
    (blocks : List (List Char × List Char)) (available : Bool)
    (render : Nat → List Char → Option (List Char)) : List (List Char × Nat) :=
  if sessionIds env content resolve blocks available render = [] then []
  else if env.linkFails then []
  else buildFilenameMap (linkResponse env
    (attachmentsOfSession (sessionStL env content resolve)
      (sessionStM env content resolve blocks available render))
    (sessionIds env content resolve blocks available render))

/-- The content held by the page at the end of the upload: the rewritten and
re-sanitized text when the rewrite pass ran, else the first-pass sanitized
content. -/
def sessionFinalContent (env : UploadEnv) (content : List Char)
    (resolve : List Char → Option (List Char))
    (blocks : List (List Char × List Char)) (available : Bool)
    (render : Nat → List Char → Option (List Char)) : List Char :=
  if sessionFilenameMap env content resolve blocks available render = [] then
    removeEmojis content
  else
    removeEmojis (rewriteAll
      (sessionFilenameMap env content resolve blocks available render)
      (rewriteAll (sessionFilenameMap env content resolve blocks available render)
        content (sessionStL env content resolve).uploaded_attachments)
      (sessionStM env content resolve blocks available render).mermaid_attachments)

/-- The non-dry-run part of `WikiUploader.upload`. -/
def uploadCore (env : UploadEnv) (content : List Char)
    (resolve : List Char → Option (List Char))
    (blocks : List (List Char × List Char)) (available : Bool)
    (render : Nat → List Char → Option (List Char)) : UploadRun :=
  { trace := [.loaded, .scanned, .rendered] ++
      ((sessionStL env content resolve).calls ++
        (sessionStM env content resolve blocks available render).calls).map
        Event.uploadCall ++
      [.sanitized, .pageWrite (removeEmojis content)] ++
      (if sessionIds env content resolve blocks available render = [] then []
        else [.linkCall (sessionIds env content resolve blocks available render)]) ++
      (if sessionFilenameMap env content resolve blocks available render = [] then []
        else [.secondWrite
          (sessionFinalContent env content resolve blocks available render)]) ++
      [.cleaned]
    uploaded_by_path := (sessionStL env content resolve).uploaded_by_path
    uploaded_attachments := (sessionStL env content resolve).uploaded_attachments
    mermaid_attachments :=
      (sessionStM env content resolve blocks available render).mermaid_attachments
    all_attachment_ids := sessionIds env content resolve blocks available render
    filenameMap := sessionFilenameMap env content resolve blocks available render
    firstContent := removeEmojis content
    finalContent := sessionFinalContent env content resolve blocks available render
    wikiId := env.wikiId
    isNew := env.isNew
    localImagesUploaded :=
      (sessionStL env content resolve).uploaded_attachments.length
    mermaidImagesUploaded :=
      (sessionStM env content resolve blocks available render).mermaid_attachments.length
    totalAttachments := (sessionIds env content resolve blocks available render).length }

/-- Model of `WikiUploader.upload` for one document, following the source
order: parse and scan; convert mermaid blocks; stop early on dry-run
(uploader lines 183-190); otherwise upload local images (deduplicated by
resolved path) then mermaid images, sanitize and write the page a first time
with the reference-unrewritten content, link the deduplicated attachment ids
and build the filename map (left empty when there is nothing to link or the
link call raises), rewrite all recorded references in the original text and
write the page a second time only when the map is nonempty, and clean up. -/
def uploadModel (env : UploadEnv) (content : List Char)
    (resolve : List Char → Option (List Char))
    (blocks : List (List Char × List Char))
    (available : Bool) (render : Nat → List Char → Option (List Char))
    (dryRun : Bool) : UploadRun :=
  if dryRun then
    { trace := [.loaded, .scanned, .rendered]
      uploaded_by_path := [], uploaded_attachments := [], mermaid_attachments := []
      all_attachment_ids := [], filenameMap := []
      firstContent := content, finalContent := content
      wikiId := 0, isNew := false
      localImagesUploaded := (localImages content resolve).length
      mermaidImagesUploaded := (convertMermaidBlocks available render blocks).length
      totalAttachments := 0 }
  else uploadCore env content resolve blocks available render

theorem uploadModel_false (env : UploadEnv) (content : List Char)
    (resolve : List Char → Option (List Char))
    (blocks : List (List Char × List Char)) (available : Bool)
    (render : Nat → List Char → Option (List Char)) :
    uploadModel env content resolve blocks available render false =
      uploadCore env content resolve blocks available render := rfl

/-- Structurally recursive twin of `scanImages` (fuel-indexed) used to
evaluate the scanner on concrete documents; `scanImages_eval` bridges the
two. -/
def scanImagesF (fuel : Nat) (l : List Char) (pos : Nat) : List ImageRef :=
  match fuel with
  | 0 => []
  | fuel + 1 =>
    match l with
    | [] => []
    | c :: rest =>
      match matchImageAt (c :: rest) with
      | some (alt, path, rest3) =>
        { original_text := imageText alt path
          alt_text := alt
          path := path
          start_pos := pos
          end_pos := pos + (alt.length + path.length + 5) } ::
          scanImagesF fuel rest3 (pos + (alt.length + path.length + 5))
      | none => scanImagesF fuel rest (pos + 1)

theorem scanImagesF_eq (fuel : Nat) : ∀ l pos, l.length ≤ fuel →
    scanImagesF fuel l pos = scanImages l pos := by
  induction fuel with
  | zero =>
    intro l pos hl
    cases l with
    | nil => rw [scanImagesF, scanImages]
    | cons c rest => simp at hl
  | succ fuel ih =>
    intro l pos hl
    cases l with
    | nil => rw [scanImagesF, scanImages]
    | cons c rest =>
      rw [scanImagesF, scanImages]
      cases hm : matchImageAt (c :: rest) with
      | none =>
        simp only
        exact ih rest (pos + 1) (by simpa using Nat.le_of_succ_le_succ hl)
      | some v =>
        obtain ⟨alt, path, rest3⟩ := v
        simp only
        have hshape := (matchImageAt_some_eq hm).1
        have hlen := congrArg List.length hshape
        rw [List.length_append, imageText_length] at hlen
        simp only [List.length_cons] at hlen
        simp only [List.length_cons] at hl
        rw [ih rest3 _ (by omega)]

theorem scanImages_eval (l : List Char) (pos : Nat) :
    scanImages l pos = scanImagesF l.length l pos :=
  (scanImagesF_eq l.length l pos (Nat.le_refl _)).symm

/-- Structurally recursive twin of `pyReplace` (fuel-indexed). -/
def pyReplaceF (fuel : Nat) (s old new : List Char) : List Char :=
  if old = [] then new ++ s.foldr (fun c acc => c :: (new ++ acc)) []
  else
    match fuel with
    | 0 => s
    | fuel + 1 =>
      match findOcc old s with
      | none => s
      | some (pre, post) => pre ++ new ++ pyReplaceF fuel post old new

/-- Structurally recursive twin of `pyCount` (fuel-indexed). -/
def pyCountF (fuel : Nat) (s old : List Char) : Nat :=
  if old = [] then s.length + 1
  else
    match fuel with
    | 0 => 0
    | fuel + 1 =>
      match findOcc old s with
      | none => 0
      | some (_, post) => 1 + pyCountF fuel post old

theorem findOcc_some_post_lt {old s pre post : List Char} (hold : old ≠ [])
    (hf : findOcc old s = some (pre, post)) : post.length < s.length := by
  have hd := findOcc_some_decomp hf
  have := congrArg List.length hd
  simp at this
  have holdlen : 0 < old.length := by
    cases old with
    | nil => exact absurd rfl hold
    | cons a t => simp
  omega

theorem pyReplaceF_eq (fuel : Nat) : ∀ s old new, s.length ≤ fuel →
    pyReplaceF fuel s old new = pyReplace s old new := by
  induction fuel with
  | zero =>
    intro s old new hl
    have hs : s = [] := List.eq_nil_of_length_eq_zero (by omega)
    subst hs
    by_cases hold : old = []
    · subst hold
      rw [pyReplaceF, if_pos rfl, pyReplace, dif_pos rfl]
    · rw [pyReplaceF, if_neg hold, pyReplace_of_none new hold]
      rw [findOcc, if_neg hold]
  | succ fuel ih =>
    intro s old new hl
    by_cases hold : old = []
    · subst hold
      rw [pyReplaceF, if_pos rfl, pyReplace, dif_pos rfl]
    · rw [pyReplaceF, if_neg hold]
      cases hf : findOcc old s with
      | none => rw [pyReplace_of_none new hold hf]
      | some pr =>
        obtain ⟨pre, post⟩ := pr
        rw [pyReplace_of_some new hold hf]
        simp only
        rw [ih post old new (by have := findOcc_some_post_lt hold hf; omega)]

theorem pyReplace_eval (s old new : List Char) :
    pyReplace s old new = pyReplaceF s.length s old new :=
  (pyReplaceF_eq s.length s old new (Nat.le_refl _)).symm

theorem pyCountF_eq (fuel : Nat) : ∀ s old, s.length ≤ fuel →
    pyCountF fuel s old = pyCount s old := by
  induction fuel with
  | zero =>
    intro s old hl
    have hs : s = [] := List.eq_nil_of_length_eq_zero (by omega)
    subst hs
    by_cases hold : old = []
    · subst hold
      rw [pyCountF, if_pos rfl, pyCount, dif_pos rfl]
    · rw [pyCountF, if_neg hold, pyCount_of_none hold]
      rw [findOcc, if_neg hold]
  | succ fuel ih =>
    intro s old hl
    by_cases hold : old = []
    · subst hold
      rw [pyCountF, if_pos rfl, pyCount, dif_pos rfl]
    · rw [pyCountF, if_neg hold]
      cases hf : findOcc old s with
      | none => rw [pyCount_of_none hold hf]
      | some pr =>
        obtain ⟨pre, post⟩ := pr
        rw [pyCount_of_some hold hf]
        simp only
        rw [ih post old (by have := findOcc_some_post_lt hold hf; omega)]

theorem pyCount_eval (s old : List Char) : pyCount s old = pyCountF s.length s old :=
  (pyCountF_eq s.length s old (Nat.le_refl _)).symm

theorem processImage_none (env : UploadEnv) (st : UploadState) (x : ImageRef × List Char)
    (hl : alookup x.2 st.uploaded_by_path = none) :
    processImage env st x =
      { uploaded_by_path := dictInsert x.2
          { id := st.nextId, name := basename x.2, size := env.fileSize x.2 }
          st.uploaded_by_path
        uploaded_attachments := dictInsert x.1.original_text
          { id := st.nextId, name := basename x.2, size := env.fileSize x.2 }
          st.uploaded_attachments
        nextId := st.nextId + 1
        calls := st.calls ++ [x.2] } := by
  rw [processImage, hl]

theorem processImage_some (env : UploadEnv) (st : UploadState) (x : ImageRef × List Char)
    (att : Attachment) (hl : alookup x.2 st.uploaded_by_path = some att) :
    processImage env st x =
      { st with uploaded_attachments :=
          dictInsert x.1.original_text att st.uploaded_attachments } := by
  rw [processImage, hl]

/-- Invariant of the local-image upload loop after processing a prefix of the
image list: the upload calls made are exactly the distinct resolved paths
seen so far (each issued once), `uploaded_by_path` holds exactly those paths
as keys, and every processed reference's original matched text is mapped in
`uploaded_attachments` to the attachment stored for its resolved path. -/
structure LoopInv (processed : List (ImageRef × List Char)) (st : UploadState) : Prop where
  calls_nodup : st.calls.Nodup
  mem_calls : ∀ p, p ∈ st.calls ↔ p ∈ processed.map Prod.snd
  byPath_mem : ∀ p, (alookup p st.uploaded_by_path).isSome = true ↔
    p ∈ processed.map Prod.snd
  text_maps : ∀ x ∈ processed, ∃ a, alookup x.2 st.uploaded_by_path = some a ∧
    alookup x.1.original_text st.uploaded_attachments = some a

theorem loopInv_init (env : UploadEnv) :
    LoopInv []
      { uploaded_by_path := [], uploaded_attachments := [],
        nextId := env.firstId, calls := [] } := by
  refine ⟨by simp, by simp, by simp [alookup], by simp⟩

theorem loopInv_step (env : UploadEnv) {processed : List (ImageRef × List Char)}
    {st : UploadState} (x : ImageRef × List Char)
    (hkey : ∀ y ∈ processed, y.1.original_text = x.1.original_text → y.2 = x.2)
    (hinv : LoopInv processed st) :
    LoopInv (processed ++ [x]) (processImage env st x) := by
  obtain ⟨hnodup, hcalls, hmem, hmaps⟩ := hinv
  cases hl : alookup x.2 st.uploaded_by_path with
  | none =>
    rw [processImage_none env st x hl]
    have hxnot : x.2 ∉ processed.map Prod.snd := by
      intro hc
      have := (hmem x.2).mpr hc
      rw [hl] at this
      simp at this
    refine ⟨?_, ?_, ?_, ?_⟩
    · simp only []
      rw [List.nodup_append]
      refine ⟨hnodup, by simp, ?_⟩
      intro a ha hb
      simp only [List.mem_singleton] at hb
      rw [hb] at ha
      exact hxnot ((hcalls x.2).mp ha)
    · intro p
      simp [hcalls p, List.mem_append]
    · intro p
      simp only [List.map_append, List.map_cons, List.map_nil, List.mem_append,
        List.mem_singleton]
      by_cases hp : p = x.2
      · subst hp
        rw [alookup_dictInsert_self]
        simp
      · rw [alookup_dictInsert_ne hp]
        rw [hmem p]
        simp [hp]
    · intro y hy
      rcases List.mem_append.mp hy with hy | hy
      · obtain ⟨a, ha1, ha2⟩ := hmaps y hy
        have hyne : y.2 ≠ x.2 := by
          intro hc
          apply hxnot
          rw [← hc]
          exact List.mem_map_of_mem Prod.snd hy
        have hykey : y.1.original_text ≠ x.1.original_text := by
          intro hc
          exact hyne (hkey y hy hc)
        refine ⟨a, ?_, ?_⟩
        · simp only []
          rw [alookup_dictInsert_ne hyne]
          exact ha1
        · simp only []
          rw [alookup_dictInsert_ne hykey]
          exact ha2
      · simp only [List.mem_singleton] at hy
        rw [hy]
        refine ⟨{ id := st.nextId, name := basename x.2, size := env.fileSize x.2 },
          ?_, ?_⟩
        · simp only []
          rw [alookup_dictInsert_self]
        · simp only []
          rw [alookup_dictInsert_self]
  | some att =>
    rw [processImage_some env st x att hl]
    have hxmem : x.2 ∈ processed.map Prod.snd := by
      have := (hmem x.2).mp (by rw [hl]; simp)
      exact this
    refine ⟨hnodup, ?_, ?_, ?_⟩
    · intro p
      simp only [List.map_append, List.map_cons, List.map_nil, List.mem_append,
        List.mem_singleton]
      rw [hcalls p]
      constructor
      · exact fun h => Or.inl h
      · rintro (h | h)
        · exact h
        · subst h; exact hxmem
    · intro p
      simp only [List.map_append, List.map_cons, List.map_nil, List.mem_append,
        List.mem_singleton]
      rw [hmem p]
      constructor
      · exact fun h => Or.inl h
      · rintro (h | h)
        · exact h
        · subst h; exact hxmem
    · intro y hy
      rcases List.mem_append.mp hy with hy | hy
      · obtain ⟨a, ha1, ha2⟩ := hmaps y hy
        by_cases hykey : y.1.original_text = x.1.original_text
        · have hy2 : y.2 = x.2 := hkey y hy hykey
          refine ⟨att, ?_, ?_⟩
          · rw [hy2]; exact hl
          · simp only []
            rw [hykey, alookup_dictInsert_self]
        · refine ⟨a, ha1, ?_⟩
          simp only []
          rw [alookup_dictInsert_ne hykey]
          exact ha2
      · simp only [List.mem_singleton] at hy
        subst hy
        refine ⟨att, hl, ?_⟩
        simp only []
        rw [alookup_dictInsert_self]

theorem loopInv_foldl (env : UploadEnv) (images : List (ImageRef × List Char))
    (hkey : ∀ x ∈ images, ∀ y ∈ images,
      x.1.original_text = y.1.original_text → x.2 = y.2) :
    ∀ rest processed st, images = processed ++ rest → LoopInv processed st →
      LoopInv images (rest.foldl (processImage env) st) := by
  intro rest
  induction rest with
  | nil =>
    intro processed st hsplit hinv
    rw [List.foldl_nil, hsplit]
    simpa using hinv
  | cons x rest' ih =>
    intro processed st hsplit hinv
    rw [List.foldl_cons]
    have hx : x ∈ images := by rw [hsplit]; simp
    have hstep := loopInv_step env x
      (fun y hy hxy => hkey y (by rw [hsplit]; simp [hy]) x hx hxy) hinv
    refine ih (processed ++ [x]) _ ?_ hstep
    rw [hsplit]
    simp

/-- The local-image loop of `WikiUploader.upload`, started from the empty
dicts, satisfies the invariant for the whole image list. -/
theorem localLoop_spec (env : UploadEnv) (images : List (ImageRef × List Char))
    (hkey : ∀ x ∈ images, ∀ y ∈ images,
      x.1.original_text = y.1.original_text → x.2 = y.2) :
    LoopInv images (images.foldl (processImage env)
      { uploaded_by_path := [], uploaded_attachments := [],
        nextId := env.firstId, calls := [] }) :=
  loopInv_foldl env images hkey images [] _ (by simp) (loopInv_init env)

/-- Equal original matched texts determine equal resolved paths within the
local-image list: the matched text determines the written path
(`imageText_inj`) and resolution depends only on that path. -/
theorem localImages_key_det (content : List Char)
    (resolve : List Char → Option (List Char)) :
    ∀ x ∈ localImages content resolve, ∀ y ∈ localImages content resolve,
      x.1.original_text = y.1.original_text → x.2 = y.2 := by
  intro x hx y hy htext
  rw [localImages] at hx hy
  obtain ⟨r, hr, hx2⟩ := List.mem_filterMap.mp hx
  obtain ⟨r', hr', hy2⟩ := List.mem_filterMap.mp hy
  obtain ⟨p, hp, hxval⟩ := Option.map_eq_some'.mp hx2
  obtain ⟨p', hp', hyval⟩ := Option.map_eq_some'.mp hy2
  have hx1 : x.1 = r := by rw [← hxval]
  have hy1 : y.1 = r' := by rw [← hyval]
  have hxp : x.2 = p := by rw [← hxval]
  have hyp : y.2 = p' := by rw [← hyval]
  rw [hx1, hy1] at htext
  have hpath : r.path = r'.path :=
    extractImages_text_determines_path content r hr r' hr' htext
  rw [hxp, hyp]
  rw [hpath] at hp
  rw [hp] at hp'
  exact Option.some.inj hp'

theorem mermaidLoop_calls (env : UploadEnv) (ms : List (List Char × List Char)) :
    ∀ st : MermaidState,
      (ms.foldl (processMermaid env) st).calls = st.calls ++ ms.map Prod.snd := by
  induction ms with
  | nil => intro st; simp
  | cons m t ih =>
    intro st
    rw [List.foldl_cons, ih]
    simp [processMermaid]

theorem count_map_uploadCall (ls : List (List Char)) (p : List Char) :
    (ls.map Event.uploadCall).count (Event.uploadCall p) = ls.count p := by
  induction ls with
  | nil => rfl
  | cons a t ih =>
    by_cases h : a = p
    · subst h; simp [List.count_cons, ih]
    · simp [List.count_cons, ih, h]

/-- The mermaid-image loop only ever inserts into `mermaid_attachments`, so
the dict stays nonempty once the local loop produced entries; conversely the
local loop inserts into `uploaded_attachments` on every element. -/
theorem localLoop_text_ne_nil (env : UploadEnv)
    (images : List (ImageRef × List Char)) (hne : images ≠ []) :
    ∀ st : UploadState,
      (images.foldl (processImage env) st).uploaded_attachments ≠ [] := by
  induction images with
  | nil => exact absurd rfl hne
  | cons x t ih =>
    intro st
    rw [List.foldl_cons]
    by_cases ht : t = []
    · subst ht
      rw [List.foldl_nil]
      cases hl : alookup x.2 st.uploaded_by_path with
      | none => rw [processImage_none env st x hl]; exact dictInsert_ne_nil _ _ _
      | some att => rw [processImage_some env st x att hl]; exact dictInsert_ne_nil _ _ _
    · exact ih ht _

theorem count_eq_zero_of_not_mem_beq {α : Type} [BEq α] [LawfulBEq α]
    {l : List α} {p : α} (h : p ∉ l) : l.count p = 0 := by
  induction l with
  | nil => rfl
  | cons a t ih =>
    rw [List.count_cons]
    have hne : (a == p) = false := by
      rw [beq_eq_false_iff_ne]
      intro hc
      exact h (hc ▸ List.mem_cons_self a t)
    rw [hne, ih (fun hc => h (List.mem_cons_of_mem a hc))]
    simp

theorem count_eq_one_of_nodup_mem_beq {α : Type} [BEq α] [LawfulBEq α]
    {l : List α} {p : α} (hnd : l.Nodup) (hm : p ∈ l) : l.count p = 1 := by
  induction l with
  | nil => simp at hm
  | cons a t ih =>
    rw [List.count_cons]
    obtain ⟨hnotin, hndt⟩ := List.nodup_cons.mp hnd
    rcases List.mem_cons.mp hm with rfl | hm2
    · rw [count_eq_zero_of_not_mem_beq hnotin]
      simp
    · have hne : (a == p) = false := by
        rw [beq_eq_false_iff_ne]
        intro hc
        subst hc
        exact hnotin hm2
      rw [hne, ih hndt hm2]
      simp

def isPageWrite : Event → Bool
  | .pageWrite _ => true
  | _ => false

def isLinkCall : Event → Bool
  | .linkCall _ => true
  | _ => false

def isSecondWrite : Event → Bool
  | .secondWrite _ => true
  | _ => false

/-- C1: for every upload session (non-dry-run, uploads succeeding), each
distinct resolved local image path is uploaded at most once: exactly one
`upload_attachment` call is issued for it (given that the path is not also
one of the scratch-directory diagram render outputs), every ImageReference
occurrence whose path resolves to it is mapped through
`uploaded_attachments` to that single Attachment, and the linking call
includes that attachment's identifier exactly once. -/
theorem upload_dedup_per_path (env : UploadEnv) (content : List Char)
    (resolve : List Char → Option (List Char))
    (blocks : List (List Char × List Char)) (available : Bool)
    (render : Nat → List Char → Option (List Char)) (p : List Char)
    (hp : p ∈ (localImages content resolve).map Prod.snd)
    (hpm : p ∉ (convertMermaidBlocks available render blocks).map Prod.snd) :
    (uploadModel env content resolve blocks available render false).trace.count
        (Event.uploadCall p) = 1 ∧
      ∃ a : Attachment,
        (∀ x ∈ localImages content resolve, x.2 = p →
          alookup x.1.original_text
            (uploadModel env content resolve blocks available render
              false).uploaded_attachments = some a) ∧
        ∃ ids, Event.linkCall ids ∈
            (uploadModel env content resolve blocks available render false).trace ∧
          ids.count a.id = 1 := by
  rw [uploadModel_false]
  have hinv : LoopInv (localImages content resolve) (sessionStL env content resolve) :=
    localLoop_spec env _ (localImages_key_det content resolve)
  obtain ⟨hnodup, hcalls, hmem, hmaps⟩ := hinv
  obtain ⟨x₀, hx₀, hx₀p⟩ := List.mem_map.mp hp
  obtain ⟨a, ha1, ha2⟩ := hmaps x₀ hx₀
  rw [hx₀p] at ha1
  have hcL : (sessionStL env content resolve).calls.count p = 1 :=
    count_eq_one_of_nodup_mem_beq hnodup ((hcalls p).mpr hp)
  have hcM : (sessionStM env content resolve blocks available render).calls.count p = 0 := by
    rw [sessionStM, mermaidLoop_calls]
    simpa using count_eq_zero_of_not_mem_beq hpm
  have hmem_id : a.id ∈ sessionIds env content resolve blocks available render := by
    rw [sessionIds, List.mem_dedup]
    apply List.mem_append_left
    exact List.mem_map.mpr ⟨(x₀.1.original_text, a), alookup_some_mem ha2, rfl⟩
  have hids_ne : sessionIds env content resolve blocks available render ≠ [] := by
    intro hc
    rw [hc] at hmem_id
    simp at hmem_id
  refine ⟨?_, a, ?_, ?_⟩
  · show (uploadCore env content resolve blocks available render).trace.count
      (Event.uploadCall p) = 1
    simp only [uploadCore]
    by_cases hmap : sessionFilenameMap env content resolve blocks available render = []
    · simp [List.count_append, count_map_uploadCall, hcL, hcM, hids_ne, hmap,
        List.count_cons]
    · simp [List.count_append, count_map_uploadCall, hcL, hcM, hids_ne, hmap,
        List.count_cons]
  · intro x hx hxp
    obtain ⟨a', ha1', ha2'⟩ := hmaps x hx
    rw [hxp] at ha1'
    have haa : a' = a := by
      rw [ha1] at ha1'
      exact (Option.some.inj ha1').symm
    show alookup x.1.original_text
      (sessionStL env content resolve).uploaded_attachments = some a
    rw [ha2', haa]
  · refine ⟨sessionIds env content resolve blocks available render, ?_, ?_⟩
    · show Event.linkCall _ ∈ (uploadCore env content resolve blocks available render).trace
      simp only [uploadCore]
      rw [if_neg hids_ne]
      simp
    · exact count_eq_one_of_nodup_mem_beq (List.nodup_dedup _) hmem_id

/-- Concrete session environment used by the witnesses. -/
def envW : UploadEnv :=
  { firstId := 1, fileSize := fun _ => 10, wikiId := 7, isNew := true,
    linkFails := false, pageScopedId := fun i => i + 100 }

/-- Concrete environment whose linking call raises. -/
def envWFail : UploadEnv :=
  { firstId := 1, fileSize := fun _ => 10, wikiId := 7, isNew := true,
    linkFails := true, pageScopedId := fun i => i + 100 }

/-- Concrete resolver: only the path text `i` resolves (to itself). -/
def resolveW : List Char → Option (List Char) :=
  fun p => if p = "i".data then some "i".data else none

/-- Concrete render oracle: no diagram renders. -/
def renderW : Nat → List Char → Option (List Char) := fun _ _ => none

theorem localImagesW_eval :
    localImages "![a](i) ![b](i)".data resolveW =
      [({ original_text := "![a](i)".data, alt_text := "a".data, path := "i".data,
          start_pos := 0, end_pos := 7 }, "i".data),
        ({ original_text := "![b](i)".data, alt_text := "b".data, path := "i".data,
           start_pos := 8, end_pos := 15 }, "i".data)] := by
  unfold localImages extractImages
  rw [scanImages_eval]
  rfl

/-- Witness for `upload_dedup_per_path`: a document referencing the same
resolved path twice with different alt text; the session issues one upload
call, maps both occurrences to the same attachment, and links its id once. -/
theorem upload_dedup_per_path_witness :
    (uploadModel envW "![a](i) ![b](i)".data resolveW [] false renderW false).trace.count
        (Event.uploadCall "i".data) = 1 ∧
      ∃ a : Attachment,
        (∀ x ∈ localImages "![a](i) ![b](i)".data resolveW, x.2 = "i".data →
          alookup x.1.original_text
            (uploadModel envW "![a](i) ![b](i)".data resolveW [] false renderW
              false).uploaded_attachments = some a) ∧
        ∃ ids, Event.linkCall ids ∈
            (uploadModel envW "![a](i) ![b](i)".data resolveW [] false renderW
              false).trace ∧
          ids.count a.id = 1 :=
  upload_dedup_per_path envW "![a](i) ![b](i)".data resolveW [] false renderW
    "i".data (by rw [localImagesW_eval]; decide) (by decide)

/-- C3 (amended): in every non-dry-run upload invocation the trace follows
the order Loaded, Scanned, Rendered, Uploaded (all attachment uploads),
Sanitized, PageCreatedOrFound (the first page write, with sanitized but
reference-unrewritten content), Linked (at most one link call, only when
there are attachments), Rewritten-or-Skipped (at most one second content
update, only when the filename map is nonempty), Cleaned.  In particular the
attachment uploads precede the first page write, which precedes linking,
which precedes the second update. -/
theorem upload_order (env : UploadEnv) (content : List Char)
    (resolve : List Char → Option (List Char))
    (blocks : List (List Char × List Char)) (available : Bool)
    (render : Nat → List Char → Option (List Char)) :
    ∃ (us : List (List Char)) (lseg wseg : List Event),
      (uploadModel env content resolve blocks available render false).trace =
        [Event.loaded, Event.scanned, Event.rendered] ++ us.map Event.uploadCall ++
          [Event.sanitized, Event.pageWrite (removeEmojis content)] ++
          lseg ++ wseg ++ [Event.cleaned] ∧
      (lseg = [] ∨ ∃ ids, lseg = [Event.linkCall ids]) ∧
      (wseg = [] ∨ ∃ c, wseg = [Event.secondWrite c]) := by
  refine ⟨(sessionStL env content resolve).calls ++
      (sessionStM env content resolve blocks available render).calls,
    (if sessionIds env content resolve blocks available render = [] then []
      else [Event.linkCall (sessionIds env content resolve blocks available render)]),
    (if sessionFilenameMap env content resolve blocks available render = [] then []
      else [Event.secondWrite
        (sessionFinalContent env content resolve blocks available render)]),
    rfl, ?_, ?_⟩
  · by_cases h : sessionIds env content resolve blocks available render = [] <;>
      simp [h]
  · by_cases h : sessionFilenameMap env content resolve blocks available render = [] <;>
      simp [h]

/-- Counterexample to C3 as stated: in a session with one local image, an
`upload_attachment` call (index 3 of the trace) happens strictly before the
first and only page write (index 5), so the first page write does not occur
before all attachment uploads. -/
theorem upload_order_counterexample :
    (uploadModel envW "![a](i)".data resolveW [] false renderW false).trace.take 6 =
        [Event.loaded, Event.scanned, Event.rendered, Event.uploadCall "i".data,
          Event.sanitized, Event.pageWrite "![a](i)".data] ∧
      (uploadModel envW "![a](i)".data resolveW [] false renderW
        false).trace.countP isPageWrite = 1 := by
  have h1 : localImages "![a](i)".data resolveW =
      [({ original_text := "![a](i)".data, alt_text := "a".data, path := "i".data,
          start_pos := 0, end_pos := 7 }, "i".data)] := by
    unfold localImages extractImages
    rw [scanImages_eval]
    rfl
  rw [uploadModel_false]
  simp only [uploadCore, sessionFilenameMap, sessionIds, sessionStM, sessionStL, h1]
  norm_num
  decide

/-- C4: for every document with zero local images and zero diagram blocks, a
non-dry-run upload performs exactly one page write (the create-or-update
pass) and never issues a link call or a second content update. -/
theorem upload_single_write_when_empty (env : UploadEnv) (content : List Char)
    (resolve : List Char → Option (List Char))
    (blocks : List (List Char × List Char)) (available : Bool)
    (render : Nat → List Char → Option (List Char))
    (himg : localImages content resolve = []) (hblk : blocks = []) :
    (uploadModel env content resolve blocks available render false).trace.countP
        isPageWrite = 1 ∧
      (uploadModel env content resolve blocks available render false).trace.countP
        isLinkCall = 0 ∧
      (uploadModel env content resolve blocks available render false).trace.countP
        isSecondWrite = 0 := by
  subst hblk
  have hconv : convertMermaidBlocks available render [] = [] := by
    rw [convertMermaidBlocks]
    simp
  have hstL : sessionStL env content resolve =
      { uploaded_by_path := [], uploaded_attachments := [],
        nextId := env.firstId, calls := [] } := by
    rw [sessionStL, himg, List.foldl_nil]
  have hstM : sessionStM env content resolve [] available render =
      { mermaid_attachments := [],
        nextId := (sessionStL env content resolve).nextId, calls := [] } := by
    rw [sessionStM, hconv, List.foldl_nil]
  have hids : sessionIds env content resolve [] available render = [] := by
    rw [sessionIds, hstL, hstM]
    simp
  have hmap : sessionFilenameMap env content resolve [] available render = [] := by
    rw [sessionFilenameMap, if_pos hids]
  rw [uploadModel_false]
  simp only [uploadCore, hstL, hstM, hids, hmap]
  simp [isPageWrite, isLinkCall, isSecondWrite, List.countP_cons]

/-- C7: if the attachment-linking remote call fails after the first page
write (and there was at least one uploaded attachment, so linking was
attempted), the upload does not raise: no attachment-name mapping is built,
the second content update is skipped entirely, the page's content remains
the first-pass sanitized content, and the run still produces its summary
trace ending in cleanup. -/
theorem upload_link_failure_graceful (env : UploadEnv) (content : List Char)
    (resolve : List Char → Option (List Char))
    (blocks : List (List Char × List Char)) (available : Bool)
    (render : Nat → List Char → Option (List Char))
    (hfail : env.linkFails = true)
    (himg : localImages content resolve ≠ []) :
    (uploadModel env content resolve blocks available render false).filenameMap = [] ∧
      (uploadModel env content resolve blocks available render false).trace.countP
        isSecondWrite = 0 ∧
      (uploadModel env content resolve blocks available render false).finalContent =
        removeEmojis content ∧
      (∃ ids, Event.linkCall ids ∈
        (uploadModel env content resolve blocks available render false).trace) ∧
      (uploadModel env content resolve blocks available render false).trace.getLast? =
        some Event.cleaned := by
  have htext : (sessionStL env content resolve).uploaded_attachments ≠ [] := by
    rw [sessionStL]
    exact localLoop_text_ne_nil env _ himg _
  have hids : sessionIds env content resolve blocks available render ≠ [] := by
    rw [sessionIds]
    intro hc
    rw [List.dedup_eq_nil] at hc
    rcases List.append_eq_nil.mp hc with ⟨hc1, -⟩
    exact htext (List.map_eq_nil_iff.mp hc1)
  have hmap : sessionFilenameMap env content resolve blocks available render = [] := by
    rw [sessionFilenameMap, if_neg hids, if_pos hfail]
  rw [uploadModel_false]
  refine ⟨hmap, ?_, ?_, ?_, ?_⟩
  · show (uploadCore env content resolve blocks available render).trace.countP
      isSecondWrite = 0
    simp only [uploadCore, hmap, if_neg hids]
    simp [isSecondWrite, List.countP_append, List.countP_cons]
  · show sessionFinalContent env content resolve blocks available render =
      removeEmojis content
    rw [sessionFinalContent, if_pos hmap]
  · refine ⟨sessionIds env content resolve blocks available render, ?_⟩
    show Event.linkCall _ ∈ (uploadCore env content resolve blocks available render).trace
    simp only [uploadCore, hmap, if_neg hids]
    simp
  · show (uploadCore env content resolve blocks available render).trace.getLast? =
      some Event.cleaned
    exact List.getLast?_concat _

/-- Witness for `upload_single_write_when_empty`: a plain document with no
image references and no diagram blocks. -/
theorem upload_single_write_when_empty_witness :
    (uploadModel envW "hello".data (fun _ => none) [] true renderW
        false).trace.countP isPageWrite = 1 ∧
      (uploadModel envW "hello".data (fun _ => none) [] true renderW
        false).trace.countP isLinkCall = 0 ∧
      (uploadModel envW "hello".data (fun _ => none) [] true renderW
        false).trace.countP isSecondWrite = 0 :=
  upload_single_write_when_empty envW "hello".data (fun _ => none) [] true renderW
    (by unfold localImages extractImages; rw [scanImages_eval]; rfl) rfl

/-- Witness for `upload_link_failure_graceful`: one local image and a
failing link call. -/
theorem upload_link_failure_graceful_witness :
    (uploadModel envWFail "![a](i)".data resolveW [] false renderW
        false).filenameMap = [] ∧
      (uploadModel envWFail "![a](i)".data resolveW [] false renderW
        false).trace.countP isSecondWrite = 0 ∧
      (uploadModel envWFail "![a](i)".data resolveW [] false renderW
        false).finalContent = removeEmojis "![a](i)".data ∧
      (∃ ids, Event.linkCall ids ∈
        (uploadModel envWFail "![a](i)".data resolveW [] false renderW
          false).trace) ∧
      (uploadModel envWFail "![a](i)".data resolveW [] false renderW
        false).trace.getLast? = some Event.cleaned :=
  upload_link_failure_graceful envWFail "![a](i)".data resolveW [] false renderW rfl
    (by unfold localImages extractImages; rw [scanImages_eval]; decide)

/-- C2 (amended): the rewrite step replaces every literal occurrence — not
merely the first — of a recorded original matched substring whose attachment
has a nonzero page-scoped mapping: the content decomposes into
occurrence-free parts separated by the `pyCount` occurrences of the original
text, and the rewritten content substitutes the embed tag `![image][name]`
for every one of those separators. -/
theorem rewrite_replaces_all_occurrences (filenameMap : List (List Char × Nat))
    (content : List Char) (entry : List Char × Attachment) (i : Nat)
    (hne : entry.1 ≠ [])
    (hmap : alookup entry.2.name filenameMap = some i) (hi : i ≠ 0) :
    ∃ parts : List (List Char),
      parts.length = pyCount content entry.1 + 1 ∧
      (∀ p ∈ parts, ¬ HasOcc entry.1 p) ∧
      content = joinWith entry.1 parts ∧
      rewriteOne filenameMap content entry =
        joinWith (backlogImageTag entry.2.name) parts := by
  obtain ⟨parts, h1, h2, h3, h4⟩ :=
    pyReplace_replaces_all content entry.1 (backlogImageTag entry.2.name) hne
  refine ⟨parts, h1, h2, h3, ?_⟩
  simp only [rewriteOne, hmap]
  rw [if_neg hi, h4]

/-- Witness for `rewrite_replaces_all_occurrences`: a document with two
occurrences of the same matched text and a mapping to page-scoped id 101. -/
theorem rewrite_replaces_all_occurrences_witness :
    ∃ parts : List (List Char),
      parts.length = pyCount "![a](i) and ![a](i)".data "![a](i)".data + 1 ∧
      (∀ p ∈ parts, ¬ HasOcc "![a](i)".data p) ∧
      "![a](i) and ![a](i)".data = joinWith "![a](i)".data parts ∧
      rewriteOne [("i".data, 101)] "![a](i) and ![a](i)".data
          ("![a](i)".data, { id := 5, name := "i".data, size := 10 }) =
        joinWith (backlogImageTag "i".data) parts :=
  rewrite_replaces_all_occurrences [("i".data, 101)] "![a](i) and ![a](i)".data
    ("![a](i)".data, { id := 5, name := "i".data, size := 10 }) 101
    (by decide) (by decide) (by decide)

/-- Counterexample to C2 as stated: when the page-scoped mapping exists but
maps the attachment name to id 0, Python's truthiness test skips the
replacement, so a recorded original with a page-scoped mapping is not
rewritten at all: the content (with two occurrences) is returned unchanged
and still begins with the original matched substring. -/
theorem rewrite_id_zero_counterexample :
    alookup "i".data [("i".data, 0)] = some 0 ∧
      pyCount "![a](i) and ![a](i)".data "![a](i)".data = 2 ∧
      rewriteOne [("i".data, 0)] "![a](i) and ![a](i)".data
          ("![a](i)".data, { id := 5, name := "i".data, size := 10 }) =
        "![a](i) and ![a](i)".data ∧
      leadsWith "![a](i)".data
        (rewriteOne [("i".data, 0)] "![a](i) and ![a](i)".data
          ("![a](i)".data, { id := 5, name := "i".data, size := 10 })) = true := by
  refine ⟨by decide, ?_, by decide, by decide⟩
  rw [pyCount_eval]
  decide

/-- Modelled from the spec (for comparison only): the path capture the
specification describes, "everything up to the next unescaped closing
parenthesis" — a closing parenthesis preceded by a backslash does not
terminate the capture.  The source regex `[^)]+` has no escape handling. -/
def specPathUpToUnescapedParen : List Char → List Char
  | [] => []
  | '\\' :: c :: t => '\\' :: c :: specPathUpToUnescapedParen t
  | c :: t => if c = ')' then [] else c :: specPathUpToUnescapedParen t

/-- Counterexample to C5 as stated: on `![a](p\).q)` the extractor captures
the path `p\` — the escaped closing parenthesis terminates the match — while
the spec's unescaped-parenthesis rule would capture `p\).q`. -/
theorem extract_images_escaped_paren_counterexample :
    (extractImages "![a](p\\).q)".data).map (fun r => r.path) = ["p\\".data] ∧
      specPathUpToUnescapedParen "p\\).q)".data = "p\\).q".data ∧
      "p\\".data ≠ "p\\).q".data := by
  refine ⟨?_, by decide, by decide⟩
  unfold extractImages
  rw [scanImages_eval]
  rfl

/-- C5 (amended): `extractImages` finds the occurrences of `![alt](path)`
with the alt text the run of non-bracket characters and the captured path
everything up to the next closing parenthesis, escaped or not (the regex
character class `[^)]+` has no escape handling): every well-formed
occurrence is reported in left-to-right order — any occurrence either is
reported at its own start position or begins strictly inside an earlier
reported match (finditer consumes matched text). -/
theorem extractImages_spec (t : List Char) :
    (extractImages t).Chain' (fun a b => a.end_pos ≤ b.start_pos) ∧
      (∀ r ∈ extractImages t,
        IsImageMatchAt t r.start_pos r.alt_text r.path ∧
        r.original_text = imageText r.alt_text r.path ∧
        r.end_pos = r.start_pos + (r.alt_text.length + r.path.length + 5)) ∧
      (∀ s alt path, IsImageMatchAt t s alt path →
        (∃ r ∈ extractImages t, r.start_pos = s) ∨
        (∃ r ∈ extractImages t, r.start_pos < s ∧ s < r.end_pos)) := by
  refine ⟨scanImages_chain t 0, ?_, ?_⟩
  · intro r hr
    obtain ⟨-, hb, hc, hd, he, hf, hg⟩ := scanImages_sound t 0 r hr
    have hlen : r.original_text.length = r.alt_text.length + r.path.length + 5 := by
      rw [hc, imageText_length]
    refine ⟨⟨hd, he, hf, ?_⟩, hc, ?_⟩
    · rw [← hlen, ← hc]
      simpa using hg
    · rw [hb, hlen]
  · intro s alt path hm
    exact scanImages_complete t t 0 (by simp) s alt path (Nat.zero_le s) hm

/-- Witness for `extractImages_spec`: in `x![a](i)y` the well-formed
occurrence at position 1 is reported at its start. -/
theorem extractImages_spec_witness :
    (∃ r ∈ extractImages "x![a](i)y".data, r.start_pos = 1) ∨
      (∃ r ∈ extractImages "x![a](i)y".data, r.start_pos < 1 ∧ 1 < r.end_pos) :=
  (extractImages_spec "x![a](i)y".data).2.2 1 "a".data "i".data
    (by constructor
        · decide
        · exact ⟨by decide, by decide, by decide⟩)

/-- C9: every reference returned by `extractImages` satisfies the span
invariant — the slice of the text from `start_pos` to `end_pos` equals
`original_text` and the span is nonempty — and the returned references have
strictly increasing, non-overlapping spans (each ends at or before the next
begins). -/
theorem extractImages_span_invariant (t : List Char) :
    (∀ r ∈ extractImages t,
      sliceAt t r.start_pos r.end_pos = r.original_text ∧ r.start_pos < r.end_pos) ∧
      (extractImages t).Chain' (fun a b => a.end_pos ≤ b.start_pos) := by
  refine ⟨?_, scanImages_chain t 0⟩
  intro r hr
  obtain ⟨hb, hc, -, -, -, hslice⟩ := extractImages_sound t r hr
  refine ⟨hslice, ?_⟩
  have hlen : 0 < r.original_text.length := by
    rw [hc, imageText_length]
    omega
  omega

/-- Witness for `extractImages_span_invariant`: the single reference of
`x![a](i)y` spans positions 1 to 8 and slices back to its matched text. -/
theorem extractImages_span_invariant_witness :
    sliceAt "x![a](i)y".data 1 8 = "![a](i)".data ∧ (1 : Nat) < 8 := by
  have hmem : ImageRef.mk "![a](i)".data "a".data "i".data 1 8 ∈
      extractImages "x![a](i)y".data := by
    unfold extractImages
    rw [scanImages_eval]
    decide
  exact (extractImages_span_invariant "x![a](i)y".data).1 _ hmem

/-- C6: a diagram conversion succeeds if and only if the external converter
exits with status zero and the expected output file exists afterwards; a
zero exit with no output file yields a failure result carrying the
output-not-produced message. -/
theorem convert_success_iff (f : List Char) (outcome : ExecOutcome) (ex : Bool) :
    ((MermaidConverter.convert f outcome ex).success = true ↔
      (∃ se so, outcome = ExecOutcome.completed 0 se so) ∧ ex = true) ∧
      (∀ se so, outcome = ExecOutcome.completed 0 se so → ex = false →
        (MermaidConverter.convert f outcome ex).success = false ∧
        (MermaidConverter.convert f outcome ex).error_message =
          some msgOutputMissing) := by
  constructor
  · cases outcome with
    | completed rc se so =>
      by_cases hrc : rc = 0
      · subst hrc
        cases ex <;> simp [MermaidConverter.convert]
      · cases ex <;> simp [MermaidConverter.convert, hrc]
    | timeout => simp [MermaidConverter.convert]
    | error m => simp [MermaidConverter.convert]
  · intro se so hc hex
    subst hc
    subst hex
    simp [MermaidConverter.convert]

/-- Witness for `convert_success_iff`: zero exit with a missing output file
is a failure with the output-not-produced message. -/
theorem convert_success_iff_witness :
    (MermaidConverter.convert "o.png".data (ExecOutcome.completed 0 [] [])
        false).success = false ∧
      (MermaidConverter.convert "o.png".data (ExecOutcome.completed 0 [] [])
        false).error_message = some msgOutputMissing :=
  (convert_success_iff "o.png".data (ExecOutcome.completed 0 [] []) false).2
    [] [] rfl rfl

/-- C8: a converter timeout (the 60-second ceiling set in the source) or any
unexpected execution error is caught and returned as a failure
`ConversionResult` with an error message, never propagated as an exception
(`MermaidConverter.convert` is total on all outcomes). -/
theorem convert_failures_absorbed (f : List Char) (outcome : ExecOutcome) (ex : Bool)
    (h : outcome = ExecOutcome.timeout ∨ ∃ m, outcome = ExecOutcome.error m) :
    (MermaidConverter.convert f outcome ex).success = false ∧
      ((MermaidConverter.convert f outcome ex).error_message).isSome = true ∧
      mmdcTimeoutSeconds = 60 := by
  rcases h with rfl | ⟨m, rfl⟩ <;>
    simp [MermaidConverter.convert, mmdcTimeoutSeconds]

/-- Witness for `convert_failures_absorbed`: the timeout outcome. -/
theorem convert_failures_absorbed_witness :
    (MermaidConverter.convert "o.png".data ExecOutcome.timeout true).success = false ∧
      ((MermaidConverter.convert "o.png".data
        ExecOutcome.timeout true).error_message).isSome = true ∧
      mmdcTimeoutSeconds = 60 :=
  convert_failures_absorbed "o.png".data ExecOutcome.timeout true (Or.inl rfl)

/-- C10: emoji sanitization is idempotent and leaves every string with no
character in the stripped ranges unchanged, so re-applying it after the
rewrite pass cannot alter already-sanitized text. -/
theorem removeEmojis_idempotent_and_fixed (s : List Char) :
    removeEmojis (removeEmojis s) = removeEmojis s ∧
      ((∀ c ∈ s, isEmojiChar c = false) → removeEmojis s = s) :=
  ⟨removeEmojis_of_no_emoji (removeEmojis_no_emoji s), removeEmojis_of_no_emoji⟩

/-- Witness for `removeEmojis_idempotent_and_fixed`: a string with two
emoji characters, and a plain string for the fixpoint part. -/
theorem removeEmojis_idempotent_and_fixed_witness :
    removeEmojis (removeEmojis "Hello 😀 World 🎉".data) =
        removeEmojis "Hello 😀 World 🎉".data ∧
      removeEmojis "Plain text".data = "Plain text".data :=
  ⟨(removeEmojis_idempotent_and_fixed "Hello 😀 World 🎉".data).1,
    (removeEmojis_idempotent_and_fixed "Plain text".data).2 (by decide)⟩
